import Mathlib

/-!
Shallow embedding of the cluster-count allocation and busmap-generation engine
of `scripts/cluster_network.py` (PyPSA-Eur), together with proofs of the spec
claims about it.  Strings are modelled as lists of characters; pandas series
are modelled as association lists or functions keyed by identifiers; floats
are modelled as exact rationals.  External stochastic or solver-backed calls
(`community.best_partition`, the pyomo solver, sklearn clusterers) are
modelled as oracle parameters, so every theorem quantifies over them.
-/

set_option maxHeartbeats 1000000

namespace ClusterNetwork

/-- Identifiers and labels: Python strings, modelled as lists of characters. -/
abbrev Str := List Char

/-- Partition-group key: the pair (country, sub_network) used by the groupby. -/
abbrev Key := Str × Str

/-- Decimal digit character for a digit value (values ≥ 10 never occur). -/
def digitChar (d : ℕ) : Char :=
  if d = 0 then '0' else if d = 1 then '1' else if d = 2 then '2'
  else if d = 3 then '3' else if d = 4 then '4' else if d = 5 then '5'
  else if d = 6 then '6' else if d = 7 then '7' else if d = 8 then '8' else '9'

/-- Fuel-indexed decimal rendering; the fuel never runs out for `fuel > n`. -/
def natLabelAux : ℕ → ℕ → Str
  | 0, _ => []
  | fuel + 1, n =>
    if n < 10 then [digitChar n]
    else natLabelAux fuel (n / 10) ++ [digitChar (n % 10)]

/-- Decimal representation of a natural number, as produced by Python `str(int)`. -/
def natLabel (n : ℕ) : Str := natLabelAux (n + 1) n

theorem digitChar_ne_space (d : ℕ) : digitChar d ≠ ' ' := by
  unfold digitChar
  repeat' split
  all_goals decide

theorem natLabelAux_ne_space (fuel : ℕ) : ∀ n, ∀ ch ∈ natLabelAux fuel n, ch ≠ ' ' := by
  induction fuel with
  | zero => intro n c hc; cases hc
  | succ fuel ih =>
    intro n c hc
    rw [natLabelAux] at hc
    split at hc
    · simp only [List.mem_singleton] at hc
      subst hc
      exact digitChar_ne_space _
    · rcases List.mem_append.mp hc with h | h
      · exact ih (n / 10) c h
      · simp only [List.mem_singleton] at h
        subst h
        exact digitChar_ne_space _

theorem natLabel_ne_space (n : ℕ) : ∀ ch ∈ natLabel n, ch ≠ ' ' :=
  natLabelAux_ne_space (n + 1) n

/-- Number of occurrences of an element in a list (pandas value counting). -/
def cnt [DecidableEq α] (a : α) (l : List α) : ℕ :=
  (l.filter (fun x => x = a)).length

theorem cnt_nil [DecidableEq α] (a : α) : cnt a ([] : List α) = 0 := rfl

theorem cnt_cons [DecidableEq α] (a b : α) (l : List α) :
    cnt a (b :: l) = (if b = a then 1 else 0) + cnt a l := by
  simp only [cnt, List.filter_cons]
  split
  · rename_i h
    rw [decide_eq_true_eq] at h
    simp [h, List.length_cons, Nat.add_comm]
  · rename_i h
    rw [decide_eq_true_eq] at h
    simp [h]

theorem cnt_append [DecidableEq α] (a : α) (l m : List α) :
    cnt a (l ++ m) = cnt a l + cnt a m := by
  simp [cnt, List.filter_append]

theorem cnt_eq_one_of_nodup_mem [DecidableEq α] {a : α} {l : List α}
    (hnd : l.Nodup) (hm : a ∈ l) : cnt a l = 1 := by
  induction l with
  | nil => cases hm
  | cons b t ih =>
    rcases List.mem_cons.mp hm with rfl | hmt
    · have hnot : a ∉ t := (List.nodup_cons.mp hnd).1
      have : cnt a t = 0 := by
        simp only [cnt, List.length_eq_zero, List.filter_eq_nil]
        intro x hx
        simp only [decide_eq_true_eq]
        intro he
        exact hnot (he ▸ hx)
      rw [cnt_cons, this]
      simp
    · have hne : b ≠ a := by
        rintro rfl
        exact (List.nodup_cons.mp hnd).1 hmt
      rw [cnt_cons, if_neg hne, ih (List.nodup_cons.mp hnd).2 hmt]

/-- Sum of an indicator map equals the count. -/
theorem sum_map_ite_eq_cnt [DecidableEq α] (a : α) (l : List α) :
    (l.map (fun x => if x = a then (1 : ℕ) else 0)).sum = cnt a l := by
  induction l with
  | nil => rfl
  | cons b t ih => simp [cnt_cons, ih]

/-! ## Data model: buses (nodes) and lines (edges) -/

/-- A bus (node): identity, partition key fields, and a stand-in for the
remaining read-only electrical attributes (here the nominal voltage). -/
structure Bus where
  id : Str
  country : Str
  sub_network : Str
  v_nom : ℚ
deriving DecidableEq

/-- A transmission line: endpoint bus ids, resistance `r`, reactance `x`,
thermal capacity `s_nom`. -/
structure Line where
  bus0 : Str
  bus1 : Str
  r : ℚ
  x : ℚ
  s_nom : ℚ
deriving DecidableEq

/-- The groupby key of a bus: `(country, sub_network)`. -/
def busKey (b : Bus) : Key := (b.country, b.sub_network)

/-- Distinct groupby keys of a bus list (`n.buses.groupby(['country','sub_network'])`). -/
def groupKeys (buses : List Bus) : List Key := (buses.map busKey).dedup

/-- The buses of one partition group. -/
def groupBuses (buses : List Bus) (k : Key) : List Bus :=
  buses.filter (fun b => busKey b = k)

/-! ## NodeWeighting (`normed`, `weighting_for_country`) -/

/-- One entry of `normed`: `(x/x.sum()).fillna(0.)` — with non-negative data the
whole column becomes NaN exactly when the sum is zero, and `fillna` maps it to 0. -/
def normedVal (s x : ℚ) : ℚ := if s = 0 then 0 else x / s

/-- Maximum of a list of rationals (`Series.max` on a non-empty series). -/
def qmax : List ℚ → ℚ
  | [] => 0
  | x :: xs => xs.foldl max x

/-- The per-bus weight `w = g + l` of `weighting_for_country`, before rescaling. -/
def weightFun (gen load : Str → ℚ) (group : List Bus) (b : Bus) : ℚ :=
  normedVal ((group.map fun c => gen c.id).sum) (gen b.id) +
  normedVal ((group.map fun c => load c.id).sum) (load b.id)

/-- `w.max()` over the group. -/
def weightMax (gen load : Str → ℚ) (group : List Bus) : ℚ :=
  qmax (group.map (weightFun gen load group))

/-- Embedding of `weighting_for_country`: `(w * (100./w.max())).clip(lower=1.).astype(int)`.
On a non-empty group with `w.max() = 0` the float code computes `100./0. = inf`,
then `0 * inf = NaN`, and `astype(int)` raises on non-finite values — modelled
as `none`.  An empty group returns an empty series without raising. -/
def weighting_for_country (gen load : Str → ℚ) (group : List Bus) :
    Option (List (Str × ℤ)) :=
  if group = [] then some []
  else if weightMax gen load group = 0 then none
  else some (group.map fun b =>
    (b.id, ⌊max 1 (weightFun gen load group b * (100 / weightMax gen load group))⌋))

/-! ## ClusterAllocator (`distribute_clusters`) -/

/-- Failure kinds of the engine (Python assertions / raised exceptions). -/
inductive Err where
  /-- `n_clusters` outside `[len(N), N.sum()]` (first assert). -/
  | configRange
  /-- focus-weight sum exceeds 1 (second assert). -/
  | configFocus
  /-- adjusted country weights do not sum to 1 within tolerance (third assert). -/
  | configSum
  /-- solver returned a non-ok status (fourth assert). -/
  | alloc
  /-- `weighting_for_country` raised (NaN `astype(int)` cast). -/
  | weightErr
  /-- unsupported `algorithm` value (final `raise ValueError`). -/
  | badAlgorithm
deriving DecidableEq

/-- Lookup of a country in the `focus_weights` dict. -/
def focusLookup (f : List (Str × ℚ)) (c : Str) : Option ℚ :=
  (f.find? (fun p => p.1 = c)).map Prod.snd

/-- `len(L[country])`: number of groups of a given country. -/
def cntCountry (L : List (Key × ℚ)) (c : Str) : ℕ :=
  (L.filter (fun p => p.1.1 = c)).length

/-- `sum(focus_weights.values())`. -/
def totalFocus (f : List (Str × ℚ)) : ℚ := (f.map Prod.snd).sum

/-- Sum of the original shares of the non-focused (remainder) groups. -/
def remSum (L : List (Key × ℚ)) (f : List (Str × ℚ)) : ℚ :=
  ((L.filter (fun p => focusLookup f p.1.1 = none)).map Prod.snd).sum

/-- Adjusted share of one group: a focus country's weight is split evenly over
its groups; remainder groups are renormalized to `1 - total_focus`. -/
def adjVal (L : List (Key × ℚ)) (f : List (Str × ℚ)) (p : Key × ℚ) : ℚ :=
  match focusLookup f p.1.1 with
  | some w => w / (cntCountry L p.1.1 : ℚ)
  | none => normedVal (remSum L f) p.2 * (1 - totalFocus f)

/-- The focus-weight override of `distribute_clusters` (lines 202–206). -/
def adjustFocus (L : List (Key × ℚ)) (f : List (Str × ℚ)) : List (Key × ℚ) :=
  L.map (fun p => (p.1, adjVal L f p))

/-- `np.isclose(a, b, rtol=1e-3)` with numpy's default `atol = 1e-8`. -/
def isclose (a b : ℚ) : Prop := |a - b| ≤ 1 / 100000000 + (1 / 1000) * |b|

instance (a b : ℚ) : Decidable (isclose a b) := by unfold isclose; infer_instance

/-- Input handed to the external pyomo solver: the model of lines 212–218. -/
structure SolverInput where
  sizes : List (Key × ℕ)
  shares : List (Key × ℚ)
  total : ℕ
deriving DecidableEq

/-- Status and variable values reported by the external solver. -/
structure SolverResult where
  okStatus : Bool
  assign : Key → ℤ

/-- Feasibility for the pyomo model: integer variables bounded `(1, N[g])`
(`n_bounds`) with `summation(m.n) == n_clusters` (`m.tot`). -/
def pyomoFeasible (inp : SolverInput) (a : Key → ℤ) : Prop :=
  ((inp.sizes.map (fun p => a p.1)).sum = (inp.total : ℤ)) ∧
  ∀ p ∈ inp.sizes, 1 ≤ a p.1 ∧ a p.1 ≤ (p.2 : ℤ)

instance (inp : SolverInput) (a : Key → ℤ) : Decidable (pyomoFeasible inp a) := by
  unfold pyomoFeasible; infer_instance

/-- A solver is sound when an ok status implies the reported variable values
satisfy the model it was asked to solve. -/
def solverSound (solver : SolverInput → SolverResult) : Prop :=
  ∀ inp, (solver inp).okStatus = true → pyomoFeasible inp (solver inp).assign

/-- Tail of `distribute_clusters` after the focus adjustment: the 1.0-sum
assert, the solve, the status assert, and the integer series construction. -/
def distributeSolve (N : List (Key × ℕ)) (K : ℕ) (solver : SolverInput → SolverResult)
    (Lp : List (Key × ℚ)) : Except Err (List (Key × ℤ)) :=
  if ¬ isclose ((Lp.map Prod.snd).sum) 1 then .error .configSum
  else if (solver ⟨N, Lp, K⟩).okStatus then
    .ok (N.map fun p => (p.1, (solver ⟨N, Lp, K⟩).assign p.1))
  else .error .alloc

/-- Embedding of `distribute_clusters`: `N` pairs each group key with its bus
count, `L` pairs each group key with its normalized mean-load share, `K` is the
requested total cluster count. -/
def distribute_clusters (N : List (Key × ℕ)) (L : List (Key × ℚ)) (K : ℕ)
    (focus : Option (List (Str × ℚ))) (solver : SolverInput → SolverResult) :
    Except Err (List (Key × ℤ)) :=
  if ¬ (N.length ≤ K ∧ K ≤ (N.map Prod.snd).sum) then .error .configRange
  else
    match focus with
    | none => distributeSolve N K solver L
    | some f =>
        if ¬ (totalFocus f ≤ 1) then .error .configFocus
        else distributeSolve N K solver (adjustFocus L f)

/-! ### Summation lemmas for the focus-weight adjustment -/

theorem sum_map_add (f g : α → ℚ) (l : List α) :
    (l.map fun x => f x + g x).sum = (l.map f).sum + (l.map g).sum := by
  induction l with
  | nil => simp
  | cons a t ih => simp only [List.map_cons, List.sum_cons, ih]; ring

theorem sum_map_mul_right (f : α → ℚ) (c : ℚ) (l : List α) :
    (l.map fun x => f x * c).sum = (l.map f).sum * c := by
  induction l with
  | nil => simp
  | cons a t ih => simp only [List.map_cons, List.sum_cons, ih]; ring

theorem sum_map_filter_eq_sum_ite (p : α → Prop) [DecidablePred p] (f : α → ℚ)
    (l : List α) :
    ((l.filter (fun x => p x)).map f).sum = (l.map fun x => if p x then f x else 0).sum := by
  induction l with
  | nil => rfl
  | cons a t ih => by_cases h : p a <;> simp [h, ih]

theorem sum_map_ite_const (p : α → Prop) [DecidablePred p] (t : ℚ) (l : List α) :
    (l.map fun x => if p x then t else 0).sum
      = ((l.filter (fun x => p x)).length : ℚ) * t := by
  induction l with
  | nil => simp
  | cons a l ih =>
    by_cases h : p a <;> simp [h, ih] <;> push_cast <;> ring

theorem focusLookup_cons (c : Str) (w : ℚ) (f' : List (Str × ℚ)) (x : Str) :
    focusLookup ((c, w) :: f') x = if c = x then some w else focusLookup f' x := by
  simp only [focusLookup, List.find?_cons]
  by_cases h : c = x <;> simp [h]

theorem focusLookup_eq_none_of_not_mem (f : List (Str × ℚ)) (c : Str)
    (h : c ∉ f.map Prod.fst) : focusLookup f c = none := by
  simp only [focusLookup, Option.map_eq_none', List.find?_eq_none]
  intro p hp
  simp only [decide_eq_true_eq]
  intro he
  exact h (List.mem_map.mpr ⟨p, hp, he⟩)

theorem sum_map_zero (l : List α) : (l.map fun _ => (0 : ℚ)).sum = 0 := by
  induction l with
  | nil => rfl
  | cons a t ih => simp [ih]

theorem adjIte_cons (L : List (Key × ℚ)) (c : Str) (w : ℚ) (f' : List (Str × ℚ))
    (hc : c ∉ f'.map Prod.fst) (p : Key × ℚ) :
    (if focusLookup ((c, w) :: f') p.1.1 = none then 0 else adjVal L ((c, w) :: f') p)
      = (if p.1.1 = c then w / (cntCountry L c : ℚ) else 0)
        + (if focusLookup f' p.1.1 = none then 0 else adjVal L f' p) := by
  by_cases hpc : p.1.1 = c
  · have h1 : focusLookup ((c, w) :: f') c = some w := by
      rw [focusLookup_cons, if_pos rfl]
    have h2 : focusLookup f' c = none := focusLookup_eq_none_of_not_mem f' c hc
    simp [adjVal, hpc, h1, h2]
  · have h1 : focusLookup ((c, w) :: f') p.1.1 = focusLookup f' p.1.1 := by
      rw [focusLookup_cons, if_neg (fun he => hpc he.symm)]
    rw [if_neg hpc, zero_add]
    cases hl : focusLookup f' p.1.1 with
    | none => simp [h1, hl]
    | some w' => simp [adjVal, h1, hl]

theorem focus_sum_ite (L : List (Key × ℚ)) :
    ∀ f : List (Str × ℚ), (f.map Prod.fst).Nodup →
      (∀ q ∈ f, 0 < cntCountry L q.1) →
      (L.map fun p => if focusLookup f p.1.1 = none then 0 else adjVal L f p).sum
        = totalFocus f := by
  intro f
  induction f with
  | nil =>
    intro _ _
    simp [focusLookup, totalFocus]
  | cons q f' ih =>
    intro hnd hg
    obtain ⟨c, w⟩ := q
    have hnd' : (c :: f'.map Prod.fst).Nodup := by simpa using hnd
    have hc : c ∉ f'.map Prod.fst := (List.nodup_cons.mp hnd').1
    rw [show (fun p : Key × ℚ =>
          if focusLookup ((c, w) :: f') p.1.1 = none then 0 else adjVal L ((c, w) :: f') p)
        = (fun p : Key × ℚ => (if p.1.1 = c then w / (cntCountry L c : ℚ) else 0)
            + (if focusLookup f' p.1.1 = none then 0 else adjVal L f' p))
      from funext (adjIte_cons L c w f' hc)]
    rw [sum_map_add, sum_map_ite_const]
    have hcnt : 0 < cntCountry L c := hg (c, w) (List.mem_cons_self _ _)
    have hcnt' : ((cntCountry L c : ℚ)) ≠ 0 := by
      exact_mod_cast Nat.pos_iff_ne_zero.mp hcnt
    have hlen : ((L.filter (fun p => p.1.1 = c)).length : ℚ) = (cntCountry L c : ℚ) := by
      simp [cntCountry]
    rw [hlen]
    rw [ih (List.nodup_cons.mp hnd').2
        (fun q hq => hg q (List.mem_cons_of_mem _ hq))]
    simp only [totalFocus, List.map_cons, List.sum_cons]
    field_simp

theorem rem_sum_eval (L : List (Key × ℚ)) (f : List (Str × ℚ)) :
    ((L.filter (fun p => focusLookup f p.1.1 = none)).map
        (fun p => normedVal (remSum L f) p.2 * (1 - totalFocus f))).sum
      = if remSum L f = 0 then 0 else 1 - totalFocus f := by
  by_cases h : remSum L f = 0
  · rw [if_pos h]
    rw [show (fun p : Key × ℚ => normedVal (remSum L f) p.2 * (1 - totalFocus f))
        = (fun _ : Key × ℚ => (0 : ℚ)) from funext (by intro p; simp [normedVal, h])]
    exact sum_map_zero _
  · rw [if_neg h]
    rw [show (fun p : Key × ℚ => normedVal (remSum L f) p.2 * (1 - totalFocus f))
        = (fun p : Key × ℚ => p.2 * ((remSum L f)⁻¹ * (1 - totalFocus f))) from
      funext (by intro p; simp [normedVal, h]; ring)]
    rw [sum_map_mul_right]
    have : ((L.filter (fun p => focusLookup f p.1.1 = none)).map Prod.snd).sum
        = remSum L f := rfl
    rw [this]
    field_simp

/-- Core identity behind C6: the adjusted shares sum to
`totalFocus + (1 - totalFocus) * (0 or 1)`. -/
theorem adjustFocus_sum (L : List (Key × ℚ)) (f : List (Str × ℚ))
    (hnd : (f.map Prod.fst).Nodup)
    (hg : ∀ q ∈ f, 0 < cntCountry L q.1)
    (hrem : remSum L f ≠ 0 ∨ totalFocus f = 1) :
    ((adjustFocus L f).map Prod.snd).sum = 1 := by
  have hmap : (adjustFocus L f).map Prod.snd = L.map (adjVal L f) := by
    simp [adjustFocus, List.map_map, Function.comp]
  have hsplit : ∀ p : Key × ℚ, adjVal L f p
      = (if focusLookup f p.1.1 = none then 0 else adjVal L f p)
        + (if focusLookup f p.1.1 = none then
            normedVal (remSum L f) p.2 * (1 - totalFocus f) else 0) := by
    intro p
    by_cases h : focusLookup f p.1.1 = none
    · simp only [h, if_pos, if_true, zero_add]
      simp [adjVal, h]
    · simp [h]
  rw [hmap, show L.map (adjVal L f)
      = L.map (fun p => (if focusLookup f p.1.1 = none then 0 else adjVal L f p)
          + (if focusLookup f p.1.1 = none then
              normedVal (remSum L f) p.2 * (1 - totalFocus f) else 0))
    from congrArg (fun g => L.map g) (funext hsplit)]
  rw [sum_map_add, focus_sum_ite L f hnd hg]
  rw [← sum_map_filter_eq_sum_ite (fun p : Key × ℚ => focusLookup f p.1.1 = none)]
  rw [rem_sum_eval]
  rcases hrem with h | h
  · rw [if_neg h]; ring
  · by_cases h0 : remSum L f = 0
    · rw [if_pos h0, h]; ring
    · rw [if_neg h0]; ring

theorem distribute_clusters_none (N : List (Key × ℕ)) (L : List (Key × ℚ)) (K : ℕ)
    (solver : SolverInput → SolverResult) :
    distribute_clusters N L K none solver
      = if ¬ (N.length ≤ K ∧ K ≤ (N.map Prod.snd).sum) then .error .configRange
        else distributeSolve N K solver L := rfl

theorem distribute_clusters_some (N : List (Key × ℕ)) (L : List (Key × ℚ)) (K : ℕ)
    (f : List (Str × ℚ)) (solver : SolverInput → SolverResult) :
    distribute_clusters N L K (some f) solver
      = if ¬ (N.length ≤ K ∧ K ≤ (N.map Prod.snd).sum) then .error .configRange
        else if ¬ (totalFocus f ≤ 1) then .error .configFocus
        else distributeSolve N K solver (adjustFocus L f) := rfl

/-! ### Concrete fixtures shared by witnesses and counterexamples -/

def kA : Key := (['A'], ['1'])

def kB : Key := (['B'], ['1'])

def N0 : List (Key × ℕ) := [(kA, 1), (kB, 1)]

def L0 : List (Key × ℚ) := [(kA, 1 / 2), (kB, 1 / 2)]

/-- One focused country, half the weight. -/
def f0 : List (Str × ℚ) := [(['A'], 1 / 2)]

/-- Every country focused, total weight 4/5 < 1. -/
def f1 : List (Str × ℚ) := [(['A'], 2 / 5), (['B'], 2 / 5)]

/-- A solver oracle that always reports ok with all-ones values. -/
def solverOk1 : SolverInput → SolverResult := fun _ => ⟨true, fun _ => 1⟩

/-- A sound solver oracle: it reports ok exactly when the all-ones point is
feasible for the model it was given, and then returns that point. -/
def wSolver : SolverInput → SolverResult :=
  fun inp => ⟨decide (pyomoFeasible inp (fun _ => 1)), fun _ => 1⟩

theorem wSolver_sound : solverSound wSolver := fun _ h => of_decide_eq_true h

/-! ### Evaluation lemmas on the fixtures -/

theorem focusLookup_f0_A : focusLookup f0 ['A'] = some (1 / 2) := rfl

theorem focusLookup_f0_B : focusLookup f0 ['B'] = none := rfl

theorem focusLookup_f1_A : focusLookup f1 ['A'] = some (2 / 5) := rfl

theorem focusLookup_f1_B : focusLookup f1 ['B'] = some (2 / 5) := rfl

theorem cntCountry_L0_A : cntCountry L0 ['A'] = 1 := rfl

theorem cntCountry_L0_B : cntCountry L0 ['B'] = 1 := rfl

theorem filter_remainder_L0_f0 :
    L0.filter (fun p => focusLookup f0 p.1.1 = none) = [(kB, 1 / 2)] := by
  simp [L0, kA, kB, List.filter_cons, focusLookup_f0_A, focusLookup_f0_B]

theorem remSum_L0_f0 : remSum L0 f0 = 1 / 2 := by
  unfold remSum
  rw [filter_remainder_L0_f0]
  simp

theorem adjust_L0_f1_sum : ((adjustFocus L0 f1).map Prod.snd).sum = 4 / 5 := by
  have hA : adjVal L0 f1 (kA, 1 / 2) = 2 / 5 := by
    simp [adjVal, kA, focusLookup_f1_A, cntCountry_L0_A]
  have hB : adjVal L0 f1 (kB, 1 / 2) = 2 / 5 := by
    simp [adjVal, kB, focusLookup_f1_B, cntCountry_L0_B]
  simp only [adjustFocus, L0, List.map_cons, List.map_nil, List.sum_cons, List.sum_nil]
  rw [show [(kA, (1 : ℚ) / 2), (kB, 1 / 2)] = L0 from rfl, hA, hB]
  norm_num

theorem not_isclose_45 : ¬ isclose ((4 : ℚ) / 5) 1 := by
  simp only [isclose, not_le, abs_one]
  have h1 : |(4 : ℚ) / 5 - 1| = 1 / 5 := by
    rw [show (4 : ℚ) / 5 - 1 = -(1 / 5) by norm_num, abs_neg,
      abs_of_pos (by norm_num : (0 : ℚ) < 1 / 5)]
  rw [h1]
  norm_num

/-! ### C6 -/

/-- C6 (amended): for a focus-weight mapping with distinct countries, each
focused country owning at least one group, and either a non-vanishing
remainder share or a focus total of exactly 1, the adjusted load-share
distribution sums to exactly 1 (hence within the 1e-3 tolerance).  The
unqualified claim is refuted by `C6_counterexample`: when every group's
country is focused and the focus total is below 1, the distribution sums to
the focus total only. -/
theorem C6_focus_adjusted_sum (L : List (Key × ℚ)) (f : List (Str × ℚ))
    (htot : totalFocus f ≤ 1)
    (hnd : (f.map Prod.fst).Nodup)
    (hg : ∀ q ∈ f, 0 < cntCountry L q.1)
    (hrem : remSum L f ≠ 0 ∨ totalFocus f = 1) :
    ((adjustFocus L f).map Prod.snd).sum = 1 ∧
    isclose ((adjustFocus L f).map Prod.snd).sum 1 := by
  have h := adjustFocus_sum L f hnd hg hrem
  refine ⟨h, ?_⟩
  rw [h]
  norm_num [isclose]

theorem C6_focus_adjusted_sum_witness :
    ((adjustFocus L0 f0).map Prod.snd).sum = 1 ∧
    isclose ((adjustFocus L0 f0).map Prod.snd).sum 1 :=
  C6_focus_adjusted_sum L0 f0 (by norm_num [totalFocus, f0]) (by decide) (by decide)
    (Or.inl (by rw [remSum_L0_f0]; norm_num))

/-- C6 counterexample: `f1` has focus-weight sum 4/5 ≤ 1, yet the adjusted
distribution sums to 4/5, far outside the 1e-3 tolerance around 1 — every
group's country is focused, so no remainder is left to renormalize. -/
theorem C6_counterexample :
    totalFocus f1 ≤ 1 ∧ ¬ isclose (((adjustFocus L0 f1).map Prod.snd).sum) 1 := by
  refine ⟨by norm_num [totalFocus, f1], ?_⟩
  rw [adjust_L0_f1_sum]
  exact not_isclose_45

/-! ### C7 -/

/-- C7 (amended): `distribute_clusters` fails with a configuration error
whenever `n_clusters` lies outside `[len(N), N.sum()]` or the focus weights
sum to more than 1.  The converse ("exactly when") is refuted by
`C7_counterexample`: the function can also fail on the later 1.0-sum check
with both preconditions satisfied. -/
theorem C7_precondition_errors (N : List (Key × ℕ)) (L : List (Key × ℚ)) (K : ℕ)
    (focus : Option (List (Str × ℚ))) (solver : SolverInput → SolverResult)
    (h : K < N.length ∨ (N.map Prod.snd).sum < K ∨
         ∃ f, focus = some f ∧ 1 < totalFocus f) :
    distribute_clusters N L K focus solver = .error .configRange ∨
    distribute_clusters N L K focus solver = .error .configFocus := by
  rcases h with h | h | ⟨f, rfl, hf⟩
  · left
    have hr : ¬ (N.length ≤ K ∧ K ≤ (N.map Prod.snd).sum) := by omega
    simp [distribute_clusters, hr]
  · left
    have hr : ¬ (N.length ≤ K ∧ K ≤ (N.map Prod.snd).sum) := by omega
    simp [distribute_clusters, hr]
  · by_cases hr : N.length ≤ K ∧ K ≤ (N.map Prod.snd).sum
    · right
      have h1 : ¬ (totalFocus f ≤ 1) := not_le.mpr hf
      simp [distribute_clusters, hr, h1]
    · left
      simp [distribute_clusters, hr]

theorem C7_precondition_errors_witness :
    distribute_clusters N0 L0 0 none solverOk1 = .error .configRange ∨
    distribute_clusters N0 L0 0 none solverOk1 = .error .configFocus :=
  C7_precondition_errors N0 L0 0 none solverOk1 (Or.inl (by decide))

/-- C7 counterexample: with `K = 2 ∈ [2, 2]` and focus sum 4/5 ≤ 1 both
preconditions hold, yet the call fails (on the assert that the adjusted
country weights sum to 1) — so "fails exactly when the preconditions are
violated" is false. -/
theorem C7_counterexample :
    (N0.length ≤ 2 ∧ 2 ≤ (N0.map Prod.snd).sum ∧ totalFocus f1 ≤ 1) ∧
    distribute_clusters N0 L0 2 (some f1) solverOk1 = .error .configSum := by
  have hrange : N0.length ≤ 2 ∧ 2 ≤ (N0.map Prod.snd).sum := by decide
  have htot : totalFocus f1 ≤ 1 := by norm_num [totalFocus, f1]
  refine ⟨⟨hrange.1, hrange.2, htot⟩, ?_⟩
  rw [distribute_clusters_some, if_neg (not_not_intro hrange), if_neg (not_not_intro htot)]
  unfold distributeSolve
  rw [if_pos]
  rw [adjust_L0_f1_sum]
  exact not_isclose_45

/-! ### C1 -/

theorem distributeSolve_ok (N : List (Key × ℕ)) (K : ℕ)
    (solver : SolverInput → SolverResult) (Lp : List (Key × ℚ))
    (budget : List (Key × ℤ)) (hs : solverSound solver)
    (hok : distributeSolve N K solver Lp = .ok budget) :
    budget = N.map (fun p => (p.1, (solver ⟨N, Lp, K⟩).assign p.1)) ∧
    pyomoFeasible ⟨N, Lp, K⟩ (solver ⟨N, Lp, K⟩).assign := by
  unfold distributeSolve at hok
  split at hok
  · exact Except.noConfusion hok
  · split at hok
    · rename_i hst
      injection hok with h
      exact ⟨h.symm, hs _ hst⟩
    · exact Except.noConfusion hok

/-- C1: for every accepted input (preconditions passed, solver status ok),
given that the external solver is sound (an ok status means the values it
reports satisfy the integer model of lines 212–218), the returned budget sums
to `n_clusters` and every group's entry lies in `[1, |g|]`. -/
theorem C1_budget_valid (N : List (Key × ℕ)) (L : List (Key × ℚ)) (K : ℕ)
    (focus : Option (List (Str × ℚ))) (solver : SolverInput → SolverResult)
    (hs : solverSound solver) (budget : List (Key × ℤ))
    (hok : distribute_clusters N L K focus solver = .ok budget) :
    (budget.map Prod.snd).sum = (K : ℤ) ∧
    ∀ p ∈ budget, ∃ q ∈ N, q.1 = p.1 ∧ 1 ≤ p.2 ∧ p.2 ≤ (q.2 : ℤ) := by
  have key : ∃ Lp, distributeSolve N K solver Lp = .ok budget := by
    cases focus with
    | none =>
      rw [distribute_clusters_none] at hok
      split at hok
      · exact Except.noConfusion hok
      · exact ⟨L, hok⟩
    | some f =>
      rw [distribute_clusters_some] at hok
      split at hok
      · exact Except.noConfusion hok
      · split at hok
        · exact Except.noConfusion hok
        · exact ⟨adjustFocus L f, hok⟩
  obtain ⟨Lp, hsol⟩ := key
  obtain ⟨hbud, hfeas⟩ := distributeSolve_ok N K solver Lp budget hs hsol
  subst hbud
  constructor
  · have hm : (N.map (fun p => (p.1, (solver ⟨N, Lp, K⟩).assign p.1))).map Prod.snd
        = N.map (fun p => (solver ⟨N, Lp, K⟩).assign p.1) := by
      simp [List.map_map, Function.comp]
    rw [hm]
    exact hfeas.1
  · intro p hp
    obtain ⟨q, hq, rfl⟩ := List.mem_map.mp hp
    exact ⟨q, hq, rfl, (hfeas.2 q hq).1, (hfeas.2 q hq).2⟩

theorem C1_budget_valid_witness :
    (([(kA, (1 : ℤ)), (kB, 1)].map Prod.snd).sum = ((2 : ℕ) : ℤ)) ∧
    ∀ p ∈ [(kA, (1 : ℤ)), (kB, 1)],
      ∃ q ∈ N0, q.1 = p.1 ∧ 1 ≤ p.2 ∧ p.2 ≤ (q.2 : ℤ) :=
  C1_budget_valid N0 L0 2 none wSolver wSolver_sound [(kA, 1), (kB, 1)] (by
    have hrange : N0.length ≤ 2 ∧ 2 ≤ (N0.map Prod.snd).sum := by decide
    have hic : isclose ((L0.map Prod.snd).sum) 1 := by
      norm_num [L0, isclose]
    have hst : (wSolver ⟨N0, L0, 2⟩).okStatus = true := by decide
    rw [distribute_clusters_none, if_neg (not_not_intro hrange)]
    unfold distributeSolve
    rw [if_neg (not_not_intro hic), if_pos hst]
    rfl)

/-! ## BusmapBuilder (`busmap_for_country` and the groupby–apply concatenation) -/

/-- Oracles for the five external clustering backends (`busmap_by_kmeans`,
`busmap_by_spectral_clustering`, `busmap_by_hac`, `busmap_by_louvain`,
`busmap_by_newman`): given the group key, the group's buses, the node weights
and the allocated cluster count, each returns a cluster index per bus id
(whose decimal string is the in-group label). -/
structure Strategies where
  kmeans : Key → List Bus → List (Str × ℤ) → ℤ → Str → ℕ
  spectral : Key → List Bus → List (Str × ℤ) → ℤ → Str → ℕ
  hac : Key → List Bus → List (Str × ℤ) → ℤ → Str → ℕ
  louvain : Key → List Bus → List (Str × ℤ) → ℤ → Str → ℕ
  newman : Key → List Bus → List (Str × ℤ) → ℤ → Str → ℕ

/-- Group label prefix: `x.name[0] + x.name[1] + ' '`. -/
def keyPfx (k : Key) : Str := k.1 ++ k.2 ++ [' ']

/-- Dispatch over the `algorithm` string; unsupported values raise. -/
def stratRun (S : Strategies) (alg : String) (k : Key) (nodes : List Bus)
    (ws : List (Str × ℤ)) (nc : ℤ) : Except Err (Str → ℕ) :=
  if alg = "kmeans" then .ok (S.kmeans k nodes ws nc)
  else if alg = "spectral" then .ok (S.spectral k nodes ws nc)
  else if alg = "hac" then .ok (S.hac k nodes ws nc)
  else if alg = "louvain" then .ok (S.louvain k nodes ws nc)
  else if alg = "newman" then .ok (S.newman k nodes ws nc)
  else .error .badAlgorithm

/-- Embedding of `busmap_for_country`: a single-node group short-circuits to
the trivial map `prefix + '0'`; otherwise weights are computed (which can
raise) and the selected strategy is run, its indices rendered as labels. -/
def busmap_for_country (alg : String) (S : Strategies) (budget : Key → ℤ)
    (gen load : Str → ℚ) (k : Key) (nodes : List Bus) :
    Except Err (List (Str × Str)) :=
  if nodes.length = 1 then
    .ok (nodes.map fun b => (b.id, keyPfx k ++ natLabel 0))
  else
    match weighting_for_country gen load nodes with
    | none => .error .weightErr
    | some ws =>
      match stratRun S alg k nodes ws (budget k) with
      | .error e => .error e
      | .ok f => .ok (nodes.map fun b => (b.id, keyPfx k ++ natLabel (f b.id)))

/-- One group's busmap inside the groupby–apply. -/
def groupBm (alg : String) (S : Strategies) (budget : Key → ℤ) (gen load : Str → ℚ)
    (buses : List Bus) (k : Key) : Except Err (List (Str × Str)) :=
  busmap_for_country alg S budget gen load k (groupBuses buses k)

/-- Concatenation of the per-group results, propagating failures. -/
def buildAux (f : Key → Except Err (List (Str × Str))) :
    List Key → Except Err (List (Str × Str))
  | [] => .ok []
  | k :: ks => do
      let g ← f k
      let rest ← buildAux f ks
      .ok (g ++ rest)

/-- The groupby–apply–concatenate of `busmap_for_n_clusters` (line 366): group
the buses by `(country, sub_network)`, build each group's busmap, concatenate. -/
def busmapBuild (alg : String) (S : Strategies) (budget : Key → ℤ)
    (gen load : Str → ℚ) (buses : List Bus) : Except Err (List (Str × Str)) :=
  buildAux (groupBm alg S budget gen load buses) (groupKeys buses)

theorem natLabel_zero : natLabel 0 = ['0'] := rfl

/-! ### C8 -/

/-- C8: a partition group with exactly one node returns the trivial
single-cluster map `prefix + '0'` for every algorithm value (valid or not) and
every behaviour of the clustering oracles — no strategy is invoked. -/
theorem C8_single_node_trivial (alg : String) (S : Strategies) (budget : Key → ℤ)
    (gen load : Str → ℚ) (k : Key) (b : Bus) :
    busmap_for_country alg S budget gen load k [b]
      = .ok [(b.id, keyPfx k ++ ['0'])] := by
  simp [busmap_for_country, natLabel_zero]

/-! ### Counting and decomposition lemmas for the full busmap -/

theorem cnt_eq_zero_of_not_mem [DecidableEq α] {a : α} {l : List α} (h : a ∉ l) :
    cnt a l = 0 := by
  induction l with
  | nil => rfl
  | cons b t ih =>
    have hba : b ≠ a := fun he => h (he ▸ List.mem_cons_self b t)
    rw [cnt_cons, if_neg hba, zero_add]
    exact ih (fun hm => h (List.mem_cons_of_mem _ hm))

theorem cnt_join [DecidableEq α] (a : α) (L : List (List α)) :
    cnt a L.join = (L.map (cnt a)).sum := by
  induction L with
  | nil => rfl
  | cons l L ih => simp [List.join_cons, cnt_append, ih]

theorem sum_map_ite_eq_cnt_rev [DecidableEq α] (a : α) (l : List α) :
    (l.map (fun x => if a = x then (1 : ℕ) else 0)).sum = cnt a l := by
  rw [show (fun x => if a = x then (1 : ℕ) else 0)
      = (fun x => if x = a then (1 : ℕ) else 0) from funext (fun x => by
    by_cases h : a = x
    · simp [h]
    · simp [h, show ¬ (x = a) from fun hh => h hh.symm])]
  exact sum_map_ite_eq_cnt a l

theorem nat_sum_map_add (f g : α → ℕ) (l : List α) :
    (l.map fun x => f x + g x).sum = (l.map f).sum + (l.map g).sum := by
  induction l with
  | nil => rfl
  | cons a t ih => simp [ih]; omega

theorem cnt_id_filter (p : Bus → Prop) [DecidablePred p] :
    ∀ buses : List Bus, (buses.map Bus.id).Nodup → ∀ b ∈ buses,
      cnt b.id ((buses.filter (fun x => p x)).map Bus.id) = if p b then 1 else 0 := by
  intro buses
  induction buses with
  | nil => intro _ b hb; cases hb
  | cons a t ih =>
    intro hnd b hb
    have hnd2 : (a.id :: t.map Bus.id).Nodup := by simpa using hnd
    have hnd' : (t.map Bus.id).Nodup := (List.nodup_cons.mp hnd2).2
    have hna : a.id ∉ t.map Bus.id := (List.nodup_cons.mp hnd2).1
    rcases List.mem_cons.mp hb with rfl | hbt
    · have hz : cnt b.id ((t.filter (fun x => p x)).map Bus.id) = 0 := by
        apply cnt_eq_zero_of_not_mem
        intro hm
        exact hna (List.map_subset _ (List.filter_sublist _).subset hm)
      by_cases hp : p b
      · simp [List.filter_cons, hp, cnt_cons, hz]
      · simp [List.filter_cons, hp, hz]
    · have hne : a.id ≠ b.id := by
        intro he
        exact hna (he ▸ List.mem_map.mpr ⟨b, hbt, rfl⟩)
      by_cases hp : p a
      · simp [List.filter_cons, hp, cnt_cons, hne, ih hnd' b hbt]
      · simp [List.filter_cons, hp, ih hnd' b hbt]

theorem partition_length :
    ∀ (buses : List Bus) (ks : List Key), ks.Nodup →
      (∀ b ∈ buses, busKey b ∈ ks) →
      (ks.map (fun k => (groupBuses buses k).length)).sum = buses.length := by
  intro buses
  induction buses with
  | nil =>
    intro ks _ _
    have h : ∀ ks' : List Key,
        (ks'.map (fun k => (groupBuses ([] : List Bus) k).length)).sum = 0 := by
      intro ks'
      induction ks' with
      | nil => rfl
      | cons a t ih => simp [groupBuses, ih]
    simpa using h ks
  | cons a t ih =>
    intro ks hnd hcov
    have hsplit : ∀ k : Key, (groupBuses (a :: t) k).length
        = (if busKey a = k then 1 else 0) + (groupBuses t k).length := by
      intro k
      by_cases h : busKey a = k <;> simp [groupBuses, List.filter_cons, h] <;> omega
    rw [show (fun k => (groupBuses (a :: t) k).length)
        = (fun k => (if busKey a = k then 1 else 0) + (groupBuses t k).length)
      from funext hsplit]
    rw [nat_sum_map_add, sum_map_ite_eq_cnt_rev,
      cnt_eq_one_of_nodup_mem hnd (hcov a (List.mem_cons_self a t)),
      ih ks hnd (fun b hb => hcov b (List.mem_cons_of_mem _ hb))]
    simp only [List.length_cons]
    omega

/-- Payload of a successful `Except`, empty list on error. -/
def okList (e : Except Err (List (Str × Str))) : List (Str × Str) :=
  match e with
  | .ok g => g
  | .error _ => []

theorem except_bind_error {α β : Type} (e : Err) (g : α → Except Err β) :
    ((Except.error e : Except Err α) >>= g) = .error e := rfl

theorem except_bind_ok {α β : Type} (x : α) (g : α → Except Err β) :
    ((Except.ok x : Except Err α) >>= g) = g x := rfl

theorem except_bind_ok2 {α β : Type} (x : α) (g : α → Except Err β) :
    (Except.ok x : Except Err α).bind g = g x := rfl

theorem buildAux_ok (f : Key → Except Err (List (Str × Str))) :
    ∀ (ks : List Key) (bm : List (Str × Str)), buildAux f ks = .ok bm →
      (∀ k ∈ ks, ∃ g, f k = .ok g) ∧ bm = (ks.map (fun k => okList (f k))).join := by
  intro ks
  induction ks with
  | nil =>
    intro bm h
    injection h with h
    exact ⟨by simp, by simp [← h]⟩
  | cons k ks ih =>
    intro bm h
    cases hfk : f k with
    | error e =>
      simp only [buildAux, hfk, except_bind_error] at h
      exact Except.noConfusion h
    | ok g =>
      cases hrest : buildAux f ks with
      | error e =>
        simp only [buildAux, hfk, hrest, except_bind_ok, except_bind_error] at h
        exact Except.noConfusion h
      | ok rest =>
        simp only [buildAux, hfk, hrest, except_bind_ok] at h
        injection h with h
        obtain ⟨hall, hrw⟩ := ih rest hrest
        refine ⟨?_, ?_⟩
        · intro k' hk'
          rcases List.mem_cons.mp hk' with rfl | hm
          · exact ⟨g, hfk⟩
          · exact hall k' hm
        · rw [← h, hrw]
          simp [hfk, okList]

theorem busmap_for_country_keys (alg : String) (S : Strategies) (budget : Key → ℤ)
    (gen load : Str → ℚ) (k : Key) (nodes : List Bus) (g : List (Str × Str))
    (hok : busmap_for_country alg S budget gen load k nodes = .ok g) :
    g.map Prod.fst = nodes.map Bus.id := by
  unfold busmap_for_country at hok
  split at hok
  · injection hok with h
    rw [← h]
    simp [List.map_map, Function.comp]
  · split at hok
    · exact Except.noConfusion hok
    · split at hok
      · exact Except.noConfusion hok
      · injection hok with h
        rw [← h]
        simp [List.map_map, Function.comp]

theorem busmap_for_country_labels (alg : String) (S : Strategies) (budget : Key → ℤ)
    (gen load : Str → ℚ) (k : Key) (nodes : List Bus) (g : List (Str × Str))
    (hok : busmap_for_country alg S budget gen load k nodes = .ok g) :
    ∀ p ∈ g, ∃ inner, (∀ ch ∈ inner, ch ≠ ' ') ∧ p.2 = (k.1 ++ k.2) ++ ' ' :: inner := by
  unfold busmap_for_country at hok
  split at hok
  · injection hok with h
    rw [← h]
    intro p hp
    obtain ⟨b, _, rfl⟩ := List.mem_map.mp hp
    exact ⟨natLabel 0, natLabel_ne_space 0, by simp [keyPfx]⟩
  · split at hok
    · exact Except.noConfusion hok
    · split at hok
      · exact Except.noConfusion hok
      · rename_i ws _ fcl _
        injection hok with h
        rw [← h]
        intro p hp
        obtain ⟨b, _, rfl⟩ := List.mem_map.mp hp
        exact ⟨natLabel (fcl b.id), natLabel_ne_space _, by simp [keyPfx]⟩

/-! ### The prefix-injection string lemma -/

theorem rev_space_aux :
    ∀ j1 j2 t1 t2 : Str, (∀ c ∈ j1, c ≠ ' ') → (∀ c ∈ j2, c ≠ ' ') →
      j1 ++ ' ' :: t1 = j2 ++ ' ' :: t2 → t1 = t2 := by
  intro j1
  induction j1 with
  | nil =>
    intro j2 t1 t2 _ h2 he
    cases j2 with
    | nil => simpa using he
    | cons d j2' =>
      simp only [List.nil_append, List.cons_append, List.cons.injEq] at he
      exact absurd he.1.symm (h2 d (List.mem_cons_self d j2'))
  | cons c j1' ih =>
    intro j2 t1 t2 h1 h2 he
    cases j2 with
    | nil =>
      simp only [List.nil_append, List.cons_append, List.cons.injEq] at he
      exact absurd he.1 (h1 c (List.mem_cons_self c j1'))
    | cons d j2' =>
      simp only [List.cons_append, List.cons.injEq] at he
      exact ih j2' t1 t2 (fun x hx => h1 x (List.mem_cons_of_mem _ hx))
        (fun x hx => h2 x (List.mem_cons_of_mem _ hx)) he.2

/-- If two space-free-suffixed labels agree, their prefixes (before the last
space) agree. -/
theorem append_space_inj (xs ys i1 i2 : Str)
    (h1 : ∀ c ∈ i1, c ≠ ' ') (h2 : ∀ c ∈ i2, c ≠ ' ')
    (he : xs ++ ' ' :: i1 = ys ++ ' ' :: i2) : xs = ys := by
  have hr := congrArg List.reverse he
  simp only [List.reverse_append, List.reverse_cons] at hr
  rw [List.append_assoc, List.append_assoc, List.singleton_append,
    List.singleton_append] at hr
  have h := rev_space_aux i1.reverse i2.reverse xs.reverse ys.reverse
    (fun c hc => h1 c (List.mem_reverse.mp hc))
    (fun c hc => h2 c (List.mem_reverse.mp hc)) hr
  exact List.reverse_injective h

theorem busmapBuild_keys_once (alg : String) (S : Strategies) (budget : Key → ℤ)
    (gen load : Str → ℚ) (buses : List Bus) (bm : List (Str × Str))
    (hnd : (buses.map Bus.id).Nodup)
    (hok : busmapBuild alg S budget gen load buses = .ok bm) :
    ∀ b ∈ buses, cnt b.id (bm.map Prod.fst) = 1 := by
  obtain ⟨hall, hbm⟩ := buildAux_ok _ (groupKeys buses) bm hok
  intro b hb
  subst hbm
  rw [List.map_join, List.map_map, cnt_join, List.map_map]
  have hcongr : (groupKeys buses).map
        (cnt b.id ∘ List.map Prod.fst ∘ fun k => okList (groupBm alg S budget gen load buses k))
      = (groupKeys buses).map (fun k => if busKey b = k then 1 else 0) := by
    apply List.map_congr_left
    intro k hk
    obtain ⟨g, hg⟩ := hall k hk
    have hkeys := busmap_for_country_keys alg S budget gen load k (groupBuses buses k) g hg
    simp only [Function.comp, hg, okList, hkeys]
    exact cnt_id_filter (fun x => busKey x = k) buses hnd b hb
  rw [hcongr, sum_map_ite_eq_cnt_rev]
  exact cnt_eq_one_of_nodup_mem (List.nodup_dedup _)
    (List.mem_dedup.mpr (List.mem_map.mpr ⟨b, hb, rfl⟩))

theorem busmapBuild_length (alg : String) (S : Strategies) (budget : Key → ℤ)
    (gen load : Str → ℚ) (buses : List Bus) (bm : List (Str × Str))
    (hok : busmapBuild alg S budget gen load buses = .ok bm) :
    bm.length = buses.length := by
  obtain ⟨hall, hbm⟩ := buildAux_ok _ (groupKeys buses) bm hok
  subst hbm
  rw [List.length_join, List.map_map]
  have hcongr : (groupKeys buses).map
        (List.length ∘ fun k => okList (groupBm alg S budget gen load buses k))
      = (groupKeys buses).map (fun k => (groupBuses buses k).length) := by
    apply List.map_congr_left
    intro k hk
    obtain ⟨g, hg⟩ := hall k hk
    have hkeys := busmap_for_country_keys alg S budget gen load k (groupBuses buses k) g hg
    have hlen := congrArg List.length hkeys
    simp only [List.length_map] at hlen
    simp only [Function.comp, hg, okList, hlen]
  rw [hcongr]
  exact partition_length buses (groupKeys buses) (List.nodup_dedup _)
    (fun b hb => List.mem_dedup.mpr (List.mem_map.mpr ⟨b, hb, rfl⟩))

/-! ### C2 -/

/-- C2 (amended): for any full busmap produced by the builder on buses with
distinct ids, (i) every input node id appears exactly once as a key, (ii) the
set of output labels has size between 1 and the input node count, and (iii)
the label sets of two distinct partition groups are disjoint PROVIDED the
concatenation `country ++ sub_network` distinguishes the groups.  Without
that proviso the claim is false (`C2_counterexample`): the prefix is built by
plain string concatenation, so groups `("AB","1")` and `("A","B1")` share the
prefix `"AB1 "` and can collide. -/
theorem C2_busmap_invariants (alg : String) (S : Strategies) (budget : Key → ℤ)
    (gen load : Str → ℚ) (buses : List Bus) (bm : List (Str × Str))
    (hnd : (buses.map Bus.id).Nodup) (hne : buses ≠ [])
    (hpref : ∀ k1 ∈ groupKeys buses, ∀ k2 ∈ groupKeys buses,
      k1 ≠ k2 → k1.1 ++ k1.2 ≠ k2.1 ++ k2.2)
    (hok : busmapBuild alg S budget gen load buses = .ok bm) :
    (∀ b ∈ buses, cnt b.id (bm.map Prod.fst) = 1) ∧
    (1 ≤ (bm.map Prod.snd).dedup.length ∧ (bm.map Prod.snd).dedup.length ≤ buses.length) ∧
    (∀ k1 ∈ groupKeys buses, ∀ k2 ∈ groupKeys buses, k1 ≠ k2 →
      ∀ g1 g2, groupBm alg S budget gen load buses k1 = .ok g1 →
        groupBm alg S budget gen load buses k2 = .ok g2 →
        ∀ p1 ∈ g1, ∀ p2 ∈ g2, p1.2 ≠ p2.2) := by
  have hlen := busmapBuild_length alg S budget gen load buses bm hok
  refine ⟨busmapBuild_keys_once alg S budget gen load buses bm hnd hok, ⟨?_, ?_⟩, ?_⟩
  · have hbm_ne : bm ≠ [] := by
      intro h0
      apply hne
      have : buses.length = 0 := by rw [← hlen, h0]; rfl
      exact List.length_eq_zero.mp this
    have : (bm.map Prod.snd).dedup ≠ [] := by
      intro h0
      exact hbm_ne (List.map_eq_nil.mp ((List.dedup_eq_nil _).mp h0))
    have hpos := List.length_pos.mpr this
    omega
  · calc (bm.map Prod.snd).dedup.length
        ≤ (bm.map Prod.snd).length := (List.dedup_sublist _).length_le
      _ = bm.length := List.length_map _ _
      _ = buses.length := hlen
  · intro k1 hk1 k2 hk2 hkne g1 g2 hg1 hg2 p1 hp1 p2 hp2 heq
    obtain ⟨i1, hi1, hl1⟩ := busmap_for_country_labels alg S budget gen load k1
      (groupBuses buses k1) g1 hg1 p1 hp1
    obtain ⟨i2, hi2, hl2⟩ := busmap_for_country_labels alg S budget gen load k2
      (groupBuses buses k2) g2 hg2 p2 hp2
    rw [hl1, hl2] at heq
    exact hpref k1 hk1 k2 hk2 hkne (append_space_inj _ _ _ _ hi1 hi2 heq)

/-- Two single-node groups with distinct keys but colliding `country ++
sub_network` concatenation. -/
def busC1 : Bus := ⟨['n', '1'], ['A', 'B'], ['1'], 1⟩

def busC2 : Bus := ⟨['n', '2'], ['A'], ['B', '1'], 1⟩

def busesC : List Bus := [busC1, busC2]

/-- Two single-node groups with unambiguous keys (the witness network). -/
def busA : Bus := ⟨['a'], ['A'], ['1'], 1⟩

def busB : Bus := ⟨['b'], ['B'], ['1'], 1⟩

def busesW : List Bus := [busA, busB]

/-- Clustering oracles that put every node in cluster 0. -/
def stratZero : Strategies :=
  ⟨fun _ _ _ _ _ => 0, fun _ _ _ _ _ => 0, fun _ _ _ _ _ => 0,
   fun _ _ _ _ _ => 0, fun _ _ _ _ _ => 0⟩

theorem C2_busmap_invariants_witness :
    (∀ b ∈ busesW, cnt b.id
      (([(['a'], ['A', '1', ' ', '0']), (['b'], ['B', '1', ' ', '0'])].map Prod.fst)) = 1) ∧
    (1 ≤ (([(['a'], ['A', '1', ' ', '0']),
            (['b'], ['B', '1', ' ', '0'])].map Prod.snd)).dedup.length ∧
      (([(['a'], ['A', '1', ' ', '0']),
        (['b'], ['B', '1', ' ', '0'])].map Prod.snd)).dedup.length ≤ busesW.length) ∧
    (∀ k1 ∈ groupKeys busesW, ∀ k2 ∈ groupKeys busesW, k1 ≠ k2 →
      ∀ g1 g2, groupBm "kmeans" stratZero (fun _ => 1) (fun _ => 0) (fun _ => 0) busesW k1 = .ok g1 →
        groupBm "kmeans" stratZero (fun _ => 1) (fun _ => 0) (fun _ => 0) busesW k2 = .ok g2 →
        ∀ p1 ∈ g1, ∀ p2 ∈ g2, p1.2 ≠ p2.2) :=
  C2_busmap_invariants "kmeans" stratZero (fun _ => 1) (fun _ => 0) (fun _ => 0) busesW
    [(['a'], ['A', '1', ' ', '0']), (['b'], ['B', '1', ' ', '0'])]
    (by decide) (by decide) (by decide) rfl

/-- C2 counterexample: the two distinct groups `("AB","1")` and `("A","B1")`
both produce the label `"AB1 0"` for their single node — the label sets of
distinct groups are not disjoint, refuting the global-uniqueness part of the
claim. -/
theorem C2_counterexample :
    busKey busC1 ≠ busKey busC2 ∧
    groupBm "kmeans" stratZero (fun _ => 1) (fun _ => 0) (fun _ => 0) busesC (busKey busC1)
      = .ok [(['n', '1'], ['A', 'B', '1', ' ', '0'])] ∧
    groupBm "kmeans" stratZero (fun _ => 1) (fun _ => 0) (fun _ => 0) busesC (busKey busC2)
      = .ok [(['n', '2'], ['A', 'B', '1', ' ', '0'])] :=
  ⟨by decide, rfl, rfl⟩

/-! ### C3 -/

/-- C3 (amended): on a non-empty group whose combined normalized weight vector
has a nonzero maximum, `weighting_for_country` succeeds, covers exactly the
group's node ids, and assigns every node an integer weight of at least 1.  The
unqualified claim ("total for every non-empty subset, including when the
group's total generation or total load is zero") is refuted by
`C3_counterexample`: when BOTH totals are zero the weight vector is all-zero,
`100./w.max()` is `inf`, `0 * inf` is NaN, and `astype(int)` raises. -/
theorem C3_weighting_total (gen load : Str → ℚ) (group : List Bus)
    (hne : group ≠ []) (hw : weightMax gen load group ≠ 0) :
    ∃ ws, weighting_for_country gen load group = some ws ∧
      ws.map Prod.fst = group.map Bus.id ∧ ∀ p ∈ ws, 1 ≤ p.2 := by
  unfold weighting_for_country
  rw [if_neg hne, if_neg hw]
  refine ⟨_, rfl, ?_, ?_⟩
  · simp [List.map_map, Function.comp]
  · intro p hp
    obtain ⟨b, _, rfl⟩ := List.mem_map.mp hp
    have h1 : (1 : ℚ) ≤ max 1 (weightFun gen load group b * (100 / weightMax gen load group)) :=
      le_max_left 1 _
    exact Int.le_floor.mpr (by exact_mod_cast h1)

theorem C3_weighting_total_witness : ∃ ws,
    weighting_for_country (fun _ => 1) (fun _ => 0) [busA] = some ws ∧
    ws.map Prod.fst = [busA].map Bus.id ∧ ∀ p ∈ ws, 1 ≤ p.2 :=
  C3_weighting_total (fun _ => 1) (fun _ => 0) [busA] (by simp)
    (by norm_num [weightMax, weightFun, normedVal, qmax])

/-- C3 counterexample: a non-empty group in which every node has zero
generation and zero load makes `weighting_for_country` raise (`none` models
the `astype(int)` failure on NaN), refuting "total for every non-empty node
subset, including when the group's total generation or total load is zero". -/
theorem C3_counterexample :
    ([busA] : List Bus) ≠ [] ∧
    weighting_for_country (fun _ => 0) (fun _ => 0) [busA] = none := by
  have h0 : weightMax (fun _ => 0) (fun _ => 0) [busA] = 0 := by
    norm_num [weightMax, weightFun, normedVal, qmax]
  refine ⟨by simp, ?_⟩
  unfold weighting_for_country
  rw [if_neg (by simp), if_pos h0]

/-! ## The newman strategy's graph (`busmap_by_newman`, lines 327–328) -/

/-- In-group test for a line: `lines.bus0.isin(buses_i) & lines.bus1.isin(buses_i)`. -/
def lineInGroup (busesI : List Str) (l : Line) : Prop :=
  l.bus0 ∈ busesI ∧ l.bus1 ∈ busesI

instance (busesI : List Str) (l : Line) : Decidable (lineInGroup busesI l) := by
  unfold lineInGroup; infer_instance

/-- Edge weight used by `busmap_by_newman`: `n.lines.s_nom / abs(1j*lines.r)`.
The magnitude of the purely imaginary complex number `1j*r` is `|r|`, so the
code divides the thermal capacity by the magnitude of the RESISTANCE `r`. -/
def newmanWeight (l : Line) : ℚ := l.s_nom / |l.r|

/-- Modelled from the spec: the weight the spec describes for the newman
strategy — thermal capacity divided by the magnitude of the REACTANCE `x`. -/
def specNewmanWeight (l : Line) : ℚ := l.s_nom / |l.x|

/-- The weighted edge list of the graph `busmap_by_newman` builds. -/
def newmanGraphEdges (lines : List Line) (busesI : List Str) : List (Str × Str × ℚ) :=
  (lines.filter (fun l => lineInGroup busesI l)).map
    (fun l => (l.bus0, l.bus1, newmanWeight l))

/-- C5 (amended): the newman strategy's graph consists exactly of the in-group
lines, each with weight `s_nom / |r|` — thermal capacity divided by the
magnitude of the line's RESISTANCE.  The claim's "reactance magnitude" is
refuted by `C5_counterexample`. -/
theorem C5_newman_graph (lines : List Line) (busesI : List Str) :
    (∀ l ∈ lines, lineInGroup busesI l →
      (l.bus0, l.bus1, l.s_nom / |l.r|) ∈ newmanGraphEdges lines busesI) ∧
    (∀ e ∈ newmanGraphEdges lines busesI, ∃ l ∈ lines, lineInGroup busesI l ∧
      e = (l.bus0, l.bus1, l.s_nom / |l.r|)) := by
  constructor
  · intro l hl hg
    exact List.mem_map.mpr ⟨l, List.mem_filter.mpr ⟨hl, by simpa using hg⟩, rfl⟩
  · intro e he
    obtain ⟨l, hl, rfl⟩ := List.mem_map.mp he
    have h := List.mem_filter.mp hl
    exact ⟨l, h.1, by simpa using h.2, rfl⟩

/-- A line with resistance 2, reactance 5, thermal capacity 10. -/
def lineW : Line := ⟨['u'], ['v'], 2, 5, 10⟩

theorem C5_newman_graph_witness :
    (lineW.bus0, lineW.bus1, lineW.s_nom / |lineW.r|)
      ∈ newmanGraphEdges [lineW] [['u'], ['v']] :=
  (C5_newman_graph [lineW] [['u'], ['v']]).1 lineW (List.mem_cons_self _ _) (by decide)

/-- C5 counterexample: for the in-group line with r = 2, x = 5, s_nom = 10 the
built graph's edge weight is `10/|2| = 5`, whereas thermal capacity divided by
reactance magnitude would be `10/|5| = 2` — the code divides by resistance,
not reactance. -/
theorem C5_counterexample :
    newmanGraphEdges [lineW] [['u'], ['v']] = [(['u'], ['v'], newmanWeight lineW)] ∧
    newmanWeight lineW = 5 ∧ specNewmanWeight lineW = 2 ∧
    newmanWeight lineW ≠ specNewmanWeight lineW := by
  refine ⟨rfl, ?_, ?_, ?_⟩ <;> norm_num [newmanWeight, specNewmanWeight, lineW]

/-! ## Network state: `determine_network_topology` and the pipeline -/

/-- A network: the mutable state the script works on. -/
structure Network where
  buses : List Bus
  lines : List Line

/-- Models pypsa's `Network.determine_network_topology`, called at the top of
`busmap_for_n_clusters` (line 237): it recomputes the electrical topology and
overwrites every bus's `sub_network` attribute with the decimal index of its
connected component; the component indexing itself is performed by the
external library and is abstracted as `topoLabel`. -/
def detTopo (topoLabel : Network → Str → ℕ) (n : Network) : Network :=
  ⟨n.buses.map (fun b => { b with sub_network := natLabel (topoLabel n b.id) }), n.lines⟩

/-- Per-group sizes `N = n.buses.groupby(['country','sub_network']).size()`. -/
def groupSizes (buses : List Bus) : List (Key × ℕ) :=
  (groupKeys buses).map (fun k => (k, (groupBuses buses k).length))

/-- Normalized per-group mean-load shares `L` (lines 186–189). -/
def loadShares (buses : List Bus) (load : Str → ℚ) : List (Key × ℚ) :=
  (groupKeys buses).map (fun k =>
    (k, normedVal
      (((groupKeys buses).map
        (fun k2 => ((groupBuses buses k2).map (fun b => load b.id)).sum)).sum)
      (((groupBuses buses k).map (fun b => load b.id)).sum)))

/-- Budget series lookup (`n_clusters[x.name]`). -/
def budgetFun (budget : List (Key × ℤ)) : Key → ℤ :=
  fun k => (((budget.find? (fun p => p.1 = k)).map Prod.snd).getD 0)

/-- Embedding of `busmap_for_n_clusters` with its topology side effect made
explicit: determine the topology (mutating bus sub_networks), allocate the
per-group budgets, then build the busmap group by group; the returned pair
carries the busmap result and the post-call network state. -/
def busmap_for_n_clusters_model (topoLabel : Network → Str → ℕ) (alg : String)
    (S : Strategies) (K : ℕ) (focus : Option (List (Str × ℚ)))
    (solver : SolverInput → SolverResult) (gen load : Str → ℚ) (n : Network) :
    Except Err (List (Str × Str)) × Network :=
  (Except.bind
    (distribute_clusters (groupSizes (detTopo topoLabel n).buses)
      (loadShares (detTopo topoLabel n).buses load) K focus solver)
    (fun budget =>
      busmapBuild alg S (budgetFun budget) gen load (detTopo topoLabel n).buses),
   detTopo topoLabel n)

/-! ### C9 -/

/-- C9 (amended): the busmap pipeline does mutate the buses — but only their
`sub_network` attribute, which `determine_network_topology` overwrites; every
other bus attribute (id, country, nominal voltage) and the lines are preserved,
in order.  The unqualified "nodes are never mutated" is refuted by
`C9_counterexample`. -/
theorem C9_buses_preserved (topoLabel : Network → Str → ℕ) (alg : String)
    (S : Strategies) (K : ℕ) (focus : Option (List (Str × ℚ)))
    (solver : SolverInput → SolverResult) (gen load : Str → ℚ) (n : Network) :
    ((busmap_for_n_clusters_model topoLabel alg S K focus solver gen load n).2).buses.map
        (fun b => (b.id, b.country, b.v_nom))
      = n.buses.map (fun b => (b.id, b.country, b.v_nom)) ∧
    ((busmap_for_n_clusters_model topoLabel alg S K focus solver gen load n).2).lines
      = n.lines := by
  constructor
  · simp [busmap_for_n_clusters_model, detTopo, List.map_map, Function.comp]
  · rfl

/-- A one-bus network whose stored `sub_network` is the non-numeric "x". -/
def netC : Network := ⟨[⟨['b'], ['A'], ['x'], 1⟩], []⟩

/-- C9 counterexample: running the pipeline on `netC` rewrites the bus's
`sub_network` from "x" to the recomputed component label "0", so the node
attributes after the call differ from before — nodes are not immutable. -/
theorem C9_counterexample :
    ((busmap_for_n_clusters_model (fun _ _ => 0) "kmeans" stratZero 1 none solverOk1
        (fun _ => 0) (fun _ => 0) netC).2).buses ≠ netC.buses := by
  decide

/-! ### C10 -/

/-- Embedding of the busmap-handling fragment of `clustering_for_n_clusters`
(lines 381–390): with a custom busmap the requested `n_clusters` is passed on
untouched; otherwise the busmap is generated and `n_clusters` is recomputed as
the number of distinct labels in it, with no comparison against the requested
total and no error on a mismatch. -/
def clustering_for_n_clusters_model (customBusmap : Option (List (Str × Str)))
    (topoLabel : Network → Str → ℕ) (alg : String) (S : Strategies) (K : ℕ)
    (focus : Option (List (Str × ℚ))) (solver : SolverInput → SolverResult)
    (gen load : Str → ℚ) (n : Network) :
    Except Err (List (Str × Str) × ℕ) :=
  match customBusmap with
  | some bm => .ok (bm, K)
  | none =>
    Except.bind (busmap_for_n_clusters_model topoLabel alg S K focus solver gen load n).1
      (fun bm => .ok (bm, (bm.map Prod.snd).dedup.length))

/-- C10: on the generated (non-custom) path, whenever busmap generation
succeeds the function returns that busmap paired with the RECOMPUTED cluster
count — the number of distinct labels — regardless of whether it equals the
requested `K`; no error is raised and no reconciliation against the requested
total or the per-group budget takes place. -/
theorem C10_recomputed_count (topoLabel : Network → Str → ℕ) (alg : String)
    (S : Strategies) (K : ℕ) (focus : Option (List (Str × ℚ)))
    (solver : SolverInput → SolverResult) (gen load : Str → ℚ) (n : Network)
    (bm : List (Str × Str))
    (hok : (busmap_for_n_clusters_model topoLabel alg S K focus solver gen load n).1
      = .ok bm) :
    clustering_for_n_clusters_model none topoLabel alg S K focus solver gen load n
      = .ok (bm, (bm.map Prod.snd).dedup.length) := by
  simp only [clustering_for_n_clusters_model, hok]
  rfl

/-- Unfolding lemma for the strategy branch of `busmap_for_country`. -/
theorem busmap_for_country_strategy (alg : String) (S : Strategies) (budget : Key → ℤ)
    (gen load : Str → ℚ) (k : Key) (nodes : List Bus) (ws : List (Str × ℤ))
    (fcl : Str → ℕ) (hlen : ¬ nodes.length = 1)
    (hws : weighting_for_country gen load nodes = some ws)
    (halg : stratRun S alg k nodes ws (budget k) = .ok fcl) :
    busmap_for_country alg S budget gen load k nodes
      = .ok (nodes.map fun b => (b.id, keyPfx k ++ natLabel (fcl b.id))) := by
  unfold busmap_for_country
  rw [if_neg hlen]
  simp only [hws, halg]

/-- A second bus in country A, making a two-bus group with `busA`. -/
def busAc : Bus := ⟨['c'], ['A'], ['1'], 1⟩

def buses3 : List Bus := [busA, busAc]

def net3 : Network := ⟨buses3, []⟩

/-- A solver oracle that reports ok and allocates 2 everywhere. -/
def solver21 : SolverInput → SolverResult := fun _ => ⟨true, fun _ => 2⟩

theorem pipeline3_ok :
    (busmap_for_n_clusters_model (fun _ _ => 1) "kmeans" stratZero 2 none solver21
      (fun _ => 0) (fun _ => 1) net3).1
    = .ok [(['a'], ['A', '1', ' ', '0']), (['c'], ['A', '1', ' ', '0'])] := by
  have hkeys : groupKeys buses3 = [kA] := rfl
  have hsizes : groupSizes buses3 = [(kA, 2)] := rfl
  have hgb : groupBuses buses3 kA = buses3 := rfl
  have hL : loadShares buses3 (fun _ => 1) = [(kA, 1)] := by
    rw [loadShares, hkeys]
    simp only [List.map_cons, List.map_nil, hgb]
    norm_num [groupBuses, buses3, busA, busAc, busKey, kA, normedVal]
  have hic : isclose (([(kA, (1 : ℚ))].map Prod.snd).sum) 1 := by
    norm_num [isclose]
  have hdis : distribute_clusters [(kA, 2)] [(kA, 1)] 2 none solver21 = .ok [(kA, 2)] := by
    rw [distribute_clusters_none, if_neg (not_not_intro ⟨by decide, by decide⟩)]
    unfold distributeSolve
    rw [if_neg (not_not_intro hic),
      if_pos (show (solver21 ⟨[(kA, 2)], [(kA, 1)], 2⟩).okStatus = true from rfl)]
    rfl
  have hwmax : weightMax (fun _ => 0) (fun _ => 1) buses3 ≠ 0 := by
    norm_num [weightMax, weightFun, normedVal, qmax, buses3, busA, busAc]
  have hws : weighting_for_country (fun _ => 0) (fun _ => 1) buses3
      = some (buses3.map fun b => (b.id,
          ⌊max 1 (weightFun (fun _ => 0) (fun _ => 1) buses3 b *
            (100 / weightMax (fun _ => 0) (fun _ => 1) buses3))⌋)) := by
    unfold weighting_for_country
    rw [if_neg (by simp [buses3]), if_neg hwmax]
  have hbfc := busmap_for_country_strategy "kmeans" stratZero (budgetFun [(kA, 2)])
    (fun _ => 0) (fun _ => 1) kA buses3 _ _ (by decide) hws rfl
  have hbfc2 : busmap_for_country "kmeans" stratZero (budgetFun [(kA, 2)])
      (fun _ => 0) (fun _ => 1) kA buses3
      = .ok [(['a'], ['A', '1', ' ', '0']), (['c'], ['A', '1', ' ', '0'])] := by
    rw [hbfc]
    rfl
  rw [show (busmap_for_n_clusters_model (fun _ _ => 1) "kmeans" stratZero 2 none solver21
        (fun _ => 0) (fun _ => 1) net3).1
      = Except.bind (distribute_clusters (groupSizes buses3)
          (loadShares buses3 (fun _ => 1)) 2 none solver21)
          (fun budget => busmapBuild "kmeans" stratZero (budgetFun budget)
            (fun _ => 0) (fun _ => 1) buses3)
    from rfl]
  rw [hsizes, hL, hdis, except_bind_ok2]
  rw [show busmapBuild "kmeans" stratZero (budgetFun [(kA, 2)])
        (fun _ => 0) (fun _ => 1) buses3
      = Except.bind (busmap_for_country "kmeans" stratZero (budgetFun [(kA, 2)])
          (fun _ => 0) (fun _ => 1) kA buses3)
          (fun g => Except.bind (Except.ok []) fun rest =>
            .ok (g ++ rest))
    from rfl]
  rw [hbfc2]
  rfl

theorem C10_recomputed_count_witness :
    clustering_for_n_clusters_model none (fun _ _ => 1) "kmeans" stratZero 2 none solver21
      (fun _ => 0) (fun _ => 1) net3
      = .ok ([(['a'], ['A', '1', ' ', '0']), (['c'], ['A', '1', ' ', '0'])], 1) ∧
    (1 : ℕ) ≠ 2 := by
  have h := C10_recomputed_count (fun _ _ => 1) "kmeans" stratZero 2 none solver21
    (fun _ => 0) (fun _ => 1) net3
    [(['a'], ['A', '1', ' ', '0']), (['c'], ['A', '1', ' ', '0'])] pipeline3_ok
  refine ⟨?_, by decide⟩
  rw [show (([(['a'], ['A', '1', ' ', '0']),
      (['c'], ['A', '1', ' ', '0'])].map Prod.snd)).dedup.length = 1 from by decide] at h
  exact h

/-! ## The louvain resolution search (`busmap_by_louvain`, lines 283–322)

The stochastic `community.best_partition` is determinized by call order: the
oracle `bp` maps the index of a call to the community count of the partition
that call returned, so a partition is identified with its call index.  The
irrational starting resolution `100 / n_clusters**1.5` and the increments
`1/(c**1.5)` are abstracted as the parameters `initRes` and `p15inv`; both are
strictly positive for every `n_clusters ≥ 1` and `c ≥ 1`. -/

/-- `abs(len(unique(b)) - n_clusters)`: deviation of a community count from
the target. -/
def devK (K m : ℕ) : ℕ := ((m : ℤ) - (K : ℤ)).natAbs

/-- State of the resolution-search while loop. -/
structure LWState where
  b : ℕ
  bu : ℕ
  res : ℚ
  c : ℕ
  next : ℕ
  compared : List ℕ
  resTrace : List ℚ
  iters : ℕ

/-- Branch `if count(b) < n_clusters`: call `best_partition`, then `res /= c**2`. -/
def lwShrink (K : ℕ) (bp : ℕ → ℕ) (s : LWState) : LWState :=
  if bp s.b < K then
    { s with
      b := s.next
      res := s.res / (s.c : ℚ) ^ 2
      next := s.next + 1
      resTrace := (s.res / (s.c : ℚ) ^ 2) :: s.resTrace }
  else s

/-- Branch `if count(b) > n_clusters`: call `best_partition`, then `res += 1/c**1.5`. -/
def lwGrow (K : ℕ) (bp : ℕ → ℕ) (p15inv : ℕ → ℚ) (s : LWState) : LWState :=
  if K < bp s.b then
    { s with
      b := s.next
      res := s.res + p15inv s.c
      next := s.next + 1
      resTrace := (s.res + p15inv s.c) :: s.resTrace }
  else s

/-- Clamp `if res < 1e-4: res += 1e-4`. -/
def lwClamp (s : LWState) : LWState :=
  if s.res < 1 / 10000 then
    { s with
      res := s.res + 1 / 10000
      resTrace := (s.res + 1 / 10000) :: s.resTrace }
  else s

/-- One iteration of the while loop: the two conditional refinement calls, the
clamp, the tracked-best update (ties replace), and `c += 1`. -/
def lwStep (K : ℕ) (bp : ℕ → ℕ) (p15inv : ℕ → ℚ) (s : LWState) : LWState :=
  { lwClamp (lwGrow K bp p15inv (lwShrink K bp s)) with
    bu := if devK K (bp (lwClamp (lwGrow K bp p15inv (lwShrink K bp s))).b)
        ≤ devK K (bp s.bu)
      then (lwClamp (lwGrow K bp p15inv (lwShrink K bp s))).b else s.bu
    c := s.c + 1
    compared := (lwClamp (lwGrow K bp p15inv (lwShrink K bp s))).b :: s.compared
    iters := s.iters + 1 }

/-- The while loop `while (count(b) != n_clusters) & (c < 500)`, with the
early break `if count(bu) == n_clusters` after each iteration; fuel-driven
structural recursion (500 fuel always suffices since `c` starts at 1). -/
def lwGo (K : ℕ) (bp : ℕ → ℕ) (p15inv : ℕ → ℚ) : ℕ → LWState → LWState
  | 0, s => s
  | fuel + 1, s =>
    if bp s.b ≠ K ∧ s.c < 500 then
      if bp (lwStep K bp p15inv s).bu = K then lwStep K bp p15inv s
      else lwGo K bp p15inv fuel (lwStep K bp p15inv s)
    else s

/-- One repeat of the search: initial partition at the starting resolution,
then the while loop with `c = 1`. -/
def lwRepeat (K : ℕ) (bp : ℕ → ℕ) (p15inv : ℕ → ℚ) (initRes : ℚ) (start : ℕ) :
    LWState :=
  lwGo K bp p15inv 500 ⟨start, start, initRes, 1, start + 1, [], [initRes], 0⟩

/-- The `for repeat in range(0,3)` loop: three independent repeats, each
restarting resolution and tracked best from scratch; the function's return
value is built from the LAST repeat's tracked best only. -/
def busmap_by_louvain_model (K : ℕ) (bp : ℕ → ℕ) (p15inv : ℕ → ℚ) (initRes : ℚ) :
    LWState × LWState × LWState :=
  (lwRepeat K bp p15inv initRes 0,
   lwRepeat K bp p15inv initRes (lwRepeat K bp p15inv initRes 0).next,
   lwRepeat K bp p15inv initRes
     (lwRepeat K bp p15inv initRes (lwRepeat K bp p15inv initRes 0).next).next)

/-! ### Loop invariants -/

/-- Counter at least 1, resolution positive, all recorded resolutions positive. -/
def lwInv (s : LWState) : Prop :=
  1 ≤ s.c ∧ 0 < s.res ∧ ∀ r ∈ s.resTrace, 0 < r

theorem lwShrink_inv (K : ℕ) (bp : ℕ → ℕ) (s : LWState) (h : lwInv s) :
    lwInv (lwShrink K bp s) ∧ (lwShrink K bp s).c = s.c := by
  unfold lwShrink
  split
  · have hc : (0 : ℚ) < (s.c : ℚ) ^ 2 := by
      have : (0 : ℚ) < (s.c : ℚ) := by exact_mod_cast h.1
      positivity
    have hres : 0 < s.res / (s.c : ℚ) ^ 2 := div_pos h.2.1 hc
    refine ⟨⟨h.1, hres, ?_⟩, rfl⟩
    intro r hr
    rcases List.mem_cons.mp hr with rfl | hm
    · exact hres
    · exact h.2.2 r hm
  · exact ⟨h, rfl⟩

theorem lwGrow_inv (K : ℕ) (bp : ℕ → ℕ) (p15inv : ℕ → ℚ)
    (hp : ∀ c, 0 < p15inv c) (s : LWState) (h : lwInv s) :
    lwInv (lwGrow K bp p15inv s) ∧ (lwGrow K bp p15inv s).c = s.c := by
  unfold lwGrow
  split
  · have hres : 0 < s.res + p15inv s.c := add_pos h.2.1 (hp s.c)
    refine ⟨⟨h.1, hres, ?_⟩, rfl⟩
    intro r hr
    rcases List.mem_cons.mp hr with rfl | hm
    · exact hres
    · exact h.2.2 r hm
  · exact ⟨h, rfl⟩

theorem lwClamp_inv (s : LWState) (h : lwInv s) :
    lwInv (lwClamp s) ∧ (lwClamp s).c = s.c := by
  unfold lwClamp
  split
  · have hres : 0 < s.res + 1 / 10000 := add_pos h.2.1 (by norm_num)
    refine ⟨⟨h.1, hres, ?_⟩, rfl⟩
    intro r hr
    rcases List.mem_cons.mp hr with rfl | hm
    · exact hres
    · exact h.2.2 r hm
  · exact ⟨h, rfl⟩

theorem lwStep_c (K : ℕ) (bp : ℕ → ℕ) (p15inv : ℕ → ℚ) (s : LWState) :
    (lwStep K bp p15inv s).c = s.c + 1 := rfl

theorem lwStep_iters (K : ℕ) (bp : ℕ → ℕ) (p15inv : ℕ → ℚ) (s : LWState) :
    (lwStep K bp p15inv s).iters = s.iters + 1 := rfl

theorem lwStep_inv (K : ℕ) (bp : ℕ → ℕ) (p15inv : ℕ → ℚ)
    (hp : ∀ c, 0 < p15inv c) (s : LWState) (h : lwInv s) :
    lwInv (lwStep K bp p15inv s) := by
  have h1 := lwShrink_inv K bp s h
  have h2 := lwGrow_inv K bp p15inv hp _ h1.1
  have h3 := lwClamp_inv _ h2.1
  exact ⟨by rw [lwStep_c]; omega, h3.1.2.1, h3.1.2.2⟩

theorem lwGo_inv (K : ℕ) (bp : ℕ → ℕ) (p15inv : ℕ → ℚ)
    (hp : ∀ c, 0 < p15inv c) :
    ∀ fuel s, lwInv s → lwInv (lwGo K bp p15inv fuel s) := by
  intro fuel
  induction fuel with
  | zero => intro s h; exact h
  | succ fuel ih =>
    intro s h
    rw [lwGo]
    split
    · split
      · exact lwStep_inv K bp p15inv hp s h
      · exact ih _ (lwStep_inv K bp p15inv hp s h)
    · exact h

theorem lwGo_iters (K : ℕ) (bp : ℕ → ℕ) (p15inv : ℕ → ℚ) :
    ∀ fuel s, (lwGo K bp p15inv fuel s).iters ≤ s.iters + (500 - s.c) := by
  intro fuel
  induction fuel with
  | zero => intro s; simp [lwGo]
  | succ fuel ih =>
    intro s
    rw [lwGo]
    split
    · rename_i hcond
      split
      · rw [lwStep_iters]
        omega
      · have h := ih (lwStep K bp p15inv s)
        rw [lwStep_iters, lwStep_c] at h
        omega
    · omega

theorem lwStep_best (K : ℕ) (bp : ℕ → ℕ) (p15inv : ℕ → ℚ) (s : LWState)
    (h : ∀ i ∈ s.compared, devK K (bp s.bu) ≤ devK K (bp i)) :
    devK K (bp (lwStep K bp p15inv s).bu) ≤ devK K (bp s.bu) ∧
    (∀ i ∈ (lwStep K bp p15inv s).compared,
      devK K (bp (lwStep K bp p15inv s).bu) ≤ devK K (bp i)) := by
  have hcomp : (lwStep K bp p15inv s).compared
      = (lwClamp (lwGrow K bp p15inv (lwShrink K bp s))).b :: s.compared := rfl
  have hbu : (lwStep K bp p15inv s).bu
      = if devK K (bp (lwClamp (lwGrow K bp p15inv (lwShrink K bp s))).b)
          ≤ devK K (bp s.bu)
        then (lwClamp (lwGrow K bp p15inv (lwShrink K bp s))).b else s.bu := rfl
  rw [hcomp, hbu]
  split
  · rename_i hle
    refine ⟨hle, ?_⟩
    intro i hi
    rcases List.mem_cons.mp hi with rfl | hm
    · exact le_refl _
    · exact le_trans hle (h i hm)
  · rename_i hgt
    refine ⟨le_refl _, ?_⟩
    intro i hi
    rcases List.mem_cons.mp hi with rfl | hm
    · exact le_of_lt (lt_of_not_le hgt)
    · exact h i hm

theorem lwGo_best (K : ℕ) (bp : ℕ → ℕ) (p15inv : ℕ → ℚ) :
    ∀ fuel s, (∀ i ∈ s.compared, devK K (bp s.bu) ≤ devK K (bp i)) →
      devK K (bp (lwGo K bp p15inv fuel s).bu) ≤ devK K (bp s.bu) ∧
      (∀ i ∈ (lwGo K bp p15inv fuel s).compared,
        devK K (bp (lwGo K bp p15inv fuel s).bu) ≤ devK K (bp i)) := by
  intro fuel
  induction fuel with
  | zero => intro s h; exact ⟨le_refl _, h⟩
  | succ fuel ih =>
    intro s h
    rw [lwGo]
    split
    · split
      · exact lwStep_best K bp p15inv s h
      · have hs := lwStep_best K bp p15inv s h
        have hrec := ih (lwStep K bp p15inv s) hs.2
        exact ⟨le_trans hrec.1 hs.1, hrec.2⟩
    · exact ⟨le_refl _, h⟩

theorem lwRepeat_iters (K : ℕ) (bp : ℕ → ℕ) (p15inv : ℕ → ℚ) (initRes : ℚ)
    (start : ℕ) : (lwRepeat K bp p15inv initRes start).iters ≤ 499 := by
  have h := lwGo_iters K bp p15inv 500 ⟨start, start, initRes, 1, start + 1, [], [initRes], 0⟩
  simpa using h

theorem lwRepeat_inv (K : ℕ) (bp : ℕ → ℕ) (p15inv : ℕ → ℚ) (initRes : ℚ)
    (start : ℕ) (hinit : 0 < initRes) (hp : ∀ c, 0 < p15inv c) :
    lwInv (lwRepeat K bp p15inv initRes start) := by
  apply lwGo_inv K bp p15inv hp
  refine ⟨le_refl 1, hinit, ?_⟩
  intro r hr
  rcases List.mem_cons.mp hr with rfl | hm
  · exact hinit
  · cases hm

theorem lwRepeat_best (K : ℕ) (bp : ℕ → ℕ) (p15inv : ℕ → ℚ) (initRes : ℚ)
    (start : ℕ) :
    devK K (bp (lwRepeat K bp p15inv initRes start).bu) ≤ devK K (bp start) ∧
    (∀ i ∈ (lwRepeat K bp p15inv initRes start).compared,
      devK K (bp (lwRepeat K bp p15inv initRes start).bu) ≤ devK K (bp i)) := by
  have h := lwGo_best K bp p15inv 500 ⟨start, start, initRes, 1, start + 1, [], [initRes], 0⟩
    (by intro i hi; cases hi)
  exact h

/-! ### C4 -/

/-- C4 (amended): the resolution search always terminates: each of the three
search loops performs at most 500 attempts (the initial partition plus at most
499 refinement iterations), and the resolution parameter stays strictly
positive throughout, given the positive start `100/n_clusters**1.5` and the
positive increments `1/c**1.5`.  But the function returns the tracked best of
the FINAL repeat only: its deviation from the target is at most that of the
final repeat's initial partition and of every partition compared during that
repeat; the first two repeats' results — including exact hits — are discarded
(`C4_counterexample`), so the returned partition need not be the best seen
during the whole search.  The returned count may differ from the target with
no error raised: the function is total. -/
theorem C4_louvain_search (K : ℕ) (bp : ℕ → ℕ) (p15inv : ℕ → ℚ) (initRes : ℚ)
    (hinit : 0 < initRes) (hp : ∀ c, 0 < p15inv c) :
    ((busmap_by_louvain_model K bp p15inv initRes).1.iters ≤ 499 ∧
      (busmap_by_louvain_model K bp p15inv initRes).2.1.iters ≤ 499 ∧
      (busmap_by_louvain_model K bp p15inv initRes).2.2.iters ≤ 499) ∧
    (∀ r ∈ (busmap_by_louvain_model K bp p15inv initRes).1.resTrace ++
        (busmap_by_louvain_model K bp p15inv initRes).2.1.resTrace ++
        (busmap_by_louvain_model K bp p15inv initRes).2.2.resTrace, 0 < r) ∧
    (devK K (bp (busmap_by_louvain_model K bp p15inv initRes).2.2.bu)
        ≤ devK K (bp (busmap_by_louvain_model K bp p15inv initRes).2.1.next) ∧
      ∀ i ∈ (busmap_by_louvain_model K bp p15inv initRes).2.2.compared,
        devK K (bp (busmap_by_louvain_model K bp p15inv initRes).2.2.bu)
          ≤ devK K (bp i)) := by
  refine ⟨⟨lwRepeat_iters _ _ _ _ _, lwRepeat_iters _ _ _ _ _,
    lwRepeat_iters _ _ _ _ _⟩, ?_, ?_, ?_⟩
  · intro r hr
    rcases List.mem_append.mp hr with h | h
    · rcases List.mem_append.mp h with h' | h'
      · exact (lwRepeat_inv K bp p15inv initRes 0 hinit hp).2.2 r h'
      · exact (lwRepeat_inv K bp p15inv initRes _ hinit hp).2.2 r h'
    · exact (lwRepeat_inv K bp p15inv initRes _ hinit hp).2.2 r h
  · exact (lwRepeat_best K bp p15inv initRes _).1
  · exact (lwRepeat_best K bp p15inv initRes _).2

theorem C4_louvain_search_witness :
    ((busmap_by_louvain_model 2 (fun _ => 2) (fun _ => 1) 1).1.iters ≤ 499 ∧
      (busmap_by_louvain_model 2 (fun _ => 2) (fun _ => 1) 1).2.1.iters ≤ 499 ∧
      (busmap_by_louvain_model 2 (fun _ => 2) (fun _ => 1) 1).2.2.iters ≤ 499) ∧
    (∀ r ∈ (busmap_by_louvain_model 2 (fun _ => 2) (fun _ => 1) 1).1.resTrace ++
        (busmap_by_louvain_model 2 (fun _ => 2) (fun _ => 1) 1).2.1.resTrace ++
        (busmap_by_louvain_model 2 (fun _ => 2) (fun _ => 1) 1).2.2.resTrace, 0 < r) ∧
    (devK 2 ((fun _ => 2) (busmap_by_louvain_model 2 (fun _ => 2) (fun _ => 1) 1).2.2.bu)
        ≤ devK 2 ((fun _ => 2) (busmap_by_louvain_model 2 (fun _ => 2) (fun _ => 1) 1).2.1.next) ∧
      ∀ i ∈ (busmap_by_louvain_model 2 (fun _ => 2) (fun _ => 1) 1).2.2.compared,
        devK 2 ((fun _ => 2) (busmap_by_louvain_model 2 (fun _ => 2) (fun _ => 1) 1).2.2.bu)
          ≤ devK 2 ((fun _ => 2) i)) :=
  C4_louvain_search 2 (fun _ => 2) (fun _ => 1) 1 (by norm_num) (fun _ => by norm_num)

/-! ### C4 counterexample machinery: a run in which an early repeat hits the
target exactly, but the final repeat never does, so the returned partition is
not the best seen during the search. -/

theorem lwShrink_ge (K : ℕ) (bp : ℕ → ℕ) (s : LWState) (m : ℕ)
    (hb : m ≤ s.b) (hn : m ≤ s.next) :
    m ≤ (lwShrink K bp s).b ∧ m ≤ (lwShrink K bp s).next ∧
    (lwShrink K bp s).bu = s.bu := by
  unfold lwShrink
  split
  · exact ⟨hn, Nat.le_succ_of_le hn, rfl⟩
  · exact ⟨hb, hn, rfl⟩

theorem lwGrow_ge (K : ℕ) (bp : ℕ → ℕ) (p15inv : ℕ → ℚ) (s : LWState) (m : ℕ)
    (hb : m ≤ s.b) (hn : m ≤ s.next) :
    m ≤ (lwGrow K bp p15inv s).b ∧ m ≤ (lwGrow K bp p15inv s).next ∧
    (lwGrow K bp p15inv s).bu = s.bu := by
  unfold lwGrow
  split
  · exact ⟨hn, Nat.le_succ_of_le hn, rfl⟩
  · exact ⟨hb, hn, rfl⟩

theorem lwClamp_ge (s : LWState) (m : ℕ) (hb : m ≤ s.b) (hn : m ≤ s.next) :
    m ≤ (lwClamp s).b ∧ m ≤ (lwClamp s).next ∧ (lwClamp s).bu = s.bu := by
  unfold lwClamp
  split
  · exact ⟨hb, hn, rfl⟩
  · exact ⟨hb, hn, rfl⟩

theorem lwStep_ge (K : ℕ) (bp : ℕ → ℕ) (p15inv : ℕ → ℚ) (s : LWState) (m : ℕ)
    (hb : m ≤ s.b) (hbu : m ≤ s.bu) (hn : m ≤ s.next) :
    m ≤ (lwStep K bp p15inv s).b ∧ m ≤ (lwStep K bp p15inv s).bu ∧
    m ≤ (lwStep K bp p15inv s).next := by
  obtain ⟨h1b, h1n, _⟩ := lwShrink_ge K bp s m hb hn
  obtain ⟨h2b, h2n, _⟩ := lwGrow_ge K bp p15inv (lwShrink K bp s) m h1b h1n
  obtain ⟨h3b, h3n, _⟩ := lwClamp_ge (lwGrow K bp p15inv (lwShrink K bp s)) m h2b h2n
  refine ⟨h3b, ?_, h3n⟩
  rw [show (lwStep K bp p15inv s).bu
      = if devK K (bp (lwClamp (lwGrow K bp p15inv (lwShrink K bp s))).b)
          ≤ devK K (bp s.bu)
        then (lwClamp (lwGrow K bp p15inv (lwShrink K bp s))).b else s.bu from rfl]
  split
  · exact h3b
  · exact hbu

theorem lwGo_stuck (K : ℕ) (bp : ℕ → ℕ) (p15inv : ℕ → ℚ) (m : ℕ) :
    ∀ fuel s, m ≤ s.b → m ≤ s.bu → m ≤ s.next →
      m ≤ (lwGo K bp p15inv fuel s).bu := by
  intro fuel
  induction fuel with
  | zero => intro s _ hbu _; exact hbu
  | succ fuel ih =>
    intro s hb hbu hn
    rw [lwGo]
    split
    · obtain ⟨h1, h2, h3⟩ := lwStep_ge K bp p15inv s m hb hbu hn
      split
      · exact h2
      · exact ih _ h1 h2 h3
    · exact hbu

/-- Determinized oracle for the counterexample: the first two calls (the
initial partitions of repeats 0 and 1) return the target count 2 exactly;
every later call returns 5 communities. -/
def bp2 : ℕ → ℕ := fun i => if i < 2 then 2 else 5

/-- C4 counterexample: with target 2 and oracle `bp2`, the very first
partition of the search (call 0, kept as repeat 0's tracked best) hits the
target exactly (deviation 0), yet the function's returned partition — the
final repeat's tracked best — has deviation 3.  The search does not stop once
the exact target is hit and does not return the best partition seen. -/
theorem C4_counterexample :
    (busmap_by_louvain_model 2 bp2 (fun _ => 1) 1).1.bu = 0 ∧
    devK 2 (bp2 0) = 0 ∧
    devK 2 (bp2 ((busmap_by_louvain_model 2 bp2 (fun _ => 1) 1).2.2.bu)) = 3 := by
  refine ⟨rfl, by decide, ?_⟩
  have hr2 : (busmap_by_louvain_model 2 bp2 (fun _ => 1) 1).2.2
      = lwGo 2 bp2 (fun _ => 1) 500 ⟨2, 2, 1, 1, 3, [], [1], 0⟩ := rfl
  rw [hr2]
  have hge := lwGo_stuck 2 bp2 (fun _ => 1) 2 500 ⟨2, 2, 1, 1, 3, [], [1], 0⟩
    (by decide) (by decide) (by decide)
  have h5 : bp2 ((lwGo 2 bp2 (fun _ => 1) 500 ⟨2, 2, 1, 1, 3, [], [1], 0⟩).bu) = 5 := by
    simp only [bp2]
    rw [if_neg (by omega)]
  rw [h5]
  decide

end ClusterNetwork
